import Mathlib

/-!
Verification of the force-directed graph application (`src/app.tsx`).

The data model and the operations below are a shallow embedding of the
TypeScript source: nodes carry an id, a display name, a color group and an
adjacency list of neighbor ids, plus the kinematic fields managed by the
d3 simulation (`x`, `y`, `vx`, `vy`, `fx`, `fy`).  The numeric carrier for
kinematics is `Option Int` (the fields are optional in
`d3.SimulationNodeDatum` and none of the verified operations computes with
them, only copies or clears them).  Stateful React updates
(`setGraphData`) become explicit functions from the node list to a new
node list; the in-place mutation of the node objects found by
`Array.prototype.find` is modelled by positional update (`List.set`) at
the index of the first match, which reproduces JavaScript's aliasing
semantics exactly (including the case where source and target resolve to
the same object).
-/

namespace Force

structure Node where
  id : String
  name : String
  group : Nat
  connections : List String
  x : Option Int
  y : Option Int
  vx : Option Int
  vy : Option Int
  fx : Option Int
  fy : Option Int
deriving DecidableEq

instance : Inhabited Node :=
  ⟨{ id := "", name := "", group := 0, connections := [], x := none, y := none,
     vx := none, vy := none, fx := none, fy := none }⟩

/-- `Link` from the source: `{ source, target, value }` as produced by
`getLinksFromNodes` (source/target are node ids at production time). -/
structure Link where
  source : String
  target : String
  value : Nat
deriving DecidableEq

/-- The node object at position `i` (the object `Array.prototype.find`
returns when `i` is the index of the first match). -/
def nodeAt (nodes : List Node) (i : Nat) : Node :=
  nodes.getD i default

/-- `Array.prototype.findIndex`: index of the first element satisfying `p`. -/
def findIndex (p : Node → Bool) : List Node → Option Nat
  | [] => none
  | n :: rest => if p n then some 0 else (findIndex p rest).map (· + 1)

/-- Lexicographic comparison of character lists by code point, written as a
structurally recursive boolean so concrete inputs evaluate;
`charListLt_iff` below identifies it with the `<` order. -/
def charListLt : List Char → List Char → Bool
  | [], [] => false
  | [], _ :: _ => true
  | _ :: _, [] => false
  | a :: as, b :: bs => if a < b then true else if b < a then false else charListLt as bs

/-- The JavaScript `<` on strings (lexicographic comparison), as an
executable boolean; `strLt_iff` identifies it with `<` on `String`. -/
def strLt (a b : String) : Bool := charListLt a.data b.data

/-- `getLinksFromNodes` from `src/app.tsx`: for each node and each entry of
its adjacency list, emit a link exactly when `node.id < targetId`
(JavaScript string comparison, embedded as `strLt`). -/
def getLinksFromNodes : List Node → List Link
  | [] => []
  | node :: rest =>
      (node.connections.filter (fun targetId => strLt node.id targetId)).map
        (fun targetId => { source := node.id, target := targetId, value := 1 })
      ++ getLinksFromNodes rest

/-- `toggleConnection` from `src/app.tsx`.  `Array.prototype.find` is
modelled by the index of the first id match; each assignment
`node.connections = …` becomes a positional `List.set`, and the second
read of `targetNode.connections` happens after the first write (this is
what the JavaScript aliasing does when the two finds return the same
object). -/
def toggleConnection (nodes : List Node) (source target : String) : List Node :=
  match findIndex (fun n => n.id == source) nodes, findIndex (fun n => n.id == target) nodes with
  | some si, some ti =>
    let sourceNode := nodeAt nodes si
    let targetNode := nodeAt nodes ti
    if sourceNode.connections.contains target || targetNode.connections.contains source then
      let nodes1 :=
        if sourceNode.connections.contains target then
          nodes.set si { sourceNode with
            connections := sourceNode.connections.filter (fun id => id != target) }
        else nodes
      let targetNode1 := nodeAt nodes1 ti
      if targetNode1.connections.contains source then
        nodes1.set ti { targetNode1 with
          connections := targetNode1.connections.filter (fun id => id != source) }
      else nodes1
    else
      let nodes1 := nodes.set si { sourceNode with
        connections := sourceNode.connections ++ [target] }
      let targetNode1 := nodeAt nodes1 ti
      nodes1.set ti { targetNode1 with
        connections := targetNode1.connections ++ [source] }
  | _, _ => nodes

/-- The new adjacency list of one endpoint of a toggled edge, as
`toggleConnection` computes it when source and target resolve to two
distinct node objects: `mine`/`theirs` are the two endpoints' current
lists, `otherId` the other endpoint's id and `myId` this endpoint's id. -/
def toggledConns (mine theirs : List String) (otherId myId : String) : List String :=
  if mine.contains otherId || theirs.contains myId then
    mine.filter (fun x => x != otherId)
  else
    mine ++ [otherId]

/-- `addNewNode` from `src/app.tsx`.  The two external sources of
randomness are taken as oracle inputs: `newId` stands for the `nanoid()`
result and `rand3` for `Math.floor(Math.random() * 3)` (a value in
`{0, 1, 2}`, hence the `% 3` below reproduces the range). -/
def addNewNode (newId : String) (rand3 : Nat) (nodes : List Node) : List Node :=
  nodes ++ [{ id := newId,
              name := "Node " ++ toString (nodes.length + 1),
              group := rand3 % 3 + 1,
              connections := [],
              x := none, y := none, vx := none, vy := none, fx := none, fy := none }]

/-- `dragended` from `src/app.tsx`: given whether other drag gestures are
still active (`event.active`), the current `alphaTarget` and the dragged
node (`event.subject`), it returns the new `alphaTarget` and the updated
node (`fx` and `fy` set to `null`). -/
def dragended (active : Bool) (alphaTarget : ℚ) (subject : Node) : ℚ × Node :=
  (if active then alphaTarget else 0, { subject with fx := none, fy := none })

/-- Modelled from the spec: the d3-force cooling schedule (the library
implementation is not part of `src/`).  Per tick
`alpha += (alphaTarget - alpha) * alphaDecay`; the default decay rate is
~0.0228 and `alphaMin` is 0.001, and when the resulting alpha falls below
`alphaMin` the integrator transitions Running → Idle. -/
structure SimulationState where
  alpha : ℚ
  alphaTarget : ℚ
  running : Bool
deriving DecidableEq

def alphaDecayDefault : ℚ := 228 / 10000

def alphaMinDefault : ℚ := 1 / 1000

/-- Modelled from the spec: one cooling step of the integrator. -/
def tickCooling (s : SimulationState) : SimulationState :=
  let a := s.alpha + (s.alphaTarget - s.alpha) * alphaDecayDefault
  { s with alpha := a, running := if a < alphaMinDefault then false else s.running }

/-- Explicit division on ℚ: `none` models the IEEE outcome (Infinity/NaN)
of dividing by zero. -/
def safeDiv (a b : ℚ) : Option ℚ :=
  if b = 0 then none else some (a / b)

/-- Modelled from the spec: the charge (many-body repulsion) force on a
node at `(x1, y1)` due to a node at `(x2, y2)`, with the degenerate case
of coinciding positions resolved by the minimum-distance floor
`distanceMin2` (d3's `forceManyBody` default floor is 1).  The division is
made explicit so that a `none` result would correspond to an
Infinity/NaN force. -/
def chargeForce (strength distanceMin2 x1 y1 x2 y2 : ℚ) : Option (ℚ × ℚ) :=
  let dx := x2 - x1
  let dy := y2 - y1
  let l2 := max (dx * dx + dy * dy) distanceMin2
  match safeDiv strength l2 with
  | none => none
  | some w => some (dx * w, dy * w)

/-- The adjacency-symmetry invariant of the data model: if any node `a`
lists node `b` as a neighbor then `b` lists `a`. -/
def Symm (nodes : List Node) : Prop :=
  ∀ a ∈ nodes, ∀ b ∈ nodes, b.id ∈ a.connections → a.id ∈ b.connections

instance (nodes : List Node) : Decidable (Symm nodes) := by
  unfold Symm; infer_instance

/-- The adjacency-symmetry invariant together with closedness: every listed
neighbor id denotes a node of the graph, which lists the owner back. -/
def SymmClosed (nodes : List Node) : Prop :=
  ∀ a ∈ nodes, ∀ t ∈ a.connections, ∃ b ∈ nodes, b.id = t ∧ a.id ∈ b.connections

/-- No node lists itself as a neighbor. -/
def NoSelfLoops (nodes : List Node) : Prop :=
  ∀ a ∈ nodes, a.id ∉ a.connections

instance (nodes : List Node) : Decidable (SymmClosed nodes) := by
  unfold SymmClosed; infer_instance

instance (nodes : List Node) : Decidable (NoSelfLoops nodes) := by
  unfold NoSelfLoops; infer_instance

/-- The list of directed adjacency entries `(owner id, neighbor id)` read off
the node list in order; `getLinksFromNodes` emits exactly the entries of this
list whose components are strictly increasing. -/
def directedEdges : List Node → List (String × String)
  | [] => []
  | n :: rest => n.connections.map (fun t => (n.id, t)) ++ directedEdges rest

/-- Sum of all node degrees (adjacency-list lengths). -/
def totalDegree (nodes : List Node) : Nat :=
  (nodes.map (fun n => n.connections.length)).sum

/-- Two links describe the same undirected pair (same or swapped endpoints). -/
def sameUndirected (l l' : Link) : Prop :=
  (l.source = l'.source ∧ l.target = l'.target) ∨
  (l.source = l'.target ∧ l.target = l'.source)

/-- All fields of the two nodes agree except possibly the adjacency list. -/
def sameExceptConnections (n n' : Node) : Prop :=
  n.id = n'.id ∧ n.name = n'.name ∧ n.group = n'.group ∧ n.x = n'.x ∧ n.y = n'.y ∧
  n.vx = n'.vx ∧ n.vy = n'.vy ∧ n.fx = n'.fx ∧ n.fy = n'.fy

/-- Convenience constructor for concrete graph states. -/
def mkNode (id : String) (connections : List String) : Node :=
  { id := id, name := id, group := 1, connections := connections,
    x := none, y := none, vx := none, vy := none, fx := none, fy := none }

def nodeA : Node := mkNode "a" []

def demoNodes : List Node := [mkNode "a" ["b"], mkNode "b" ["a"]]

/-- The 5-cycle from the repository's initial data (Kitchen–…–Dining Room),
with the opaque nanoid identities replaced by readable ones. -/
def cycleNodes : List Node :=
  [mkNode "a" ["b", "e"], mkNode "b" ["a", "c"], mkNode "c" ["b", "d"],
   mkNode "d" ["c", "e"], mkNode "e" ["d", "a"]]

def initialSimulationState : SimulationState :=
  { alpha := 1, alphaTarget := 0, running := true }

/-! ## Theorems -/

theorem charListLt_iff (as bs : List Char) : charListLt as bs = true ↔ as < bs := by
  induction as generalizing bs with
  | nil =>
    cases bs with
    | nil =>
      constructor
      · intro h; exact absurd h (by simp [charListLt])
      · intro h; cases h
    | cons b bs =>
      constructor
      · intro _; exact List.Lex.nil
      · intro _; rfl
  | cons a as ih =>
    cases bs with
    | nil =>
      constructor
      · intro h; exact absurd h (by simp [charListLt])
      · intro h; cases h
    | cons b bs =>
      by_cases hab : a < b
      · constructor
        · intro _; exact List.Lex.rel hab
        · intro _; simp [charListLt, hab]
      · by_cases hba : b < a
        · constructor
          · intro h; exact absurd h (by simp [charListLt, hab, hba])
          · intro h
            cases h with
            | cons _ => exact absurd rfl (ne_of_gt hba)
            | rel h' => exact absurd h' hab
        · have hEq : a = b := le_antisymm (not_lt.mp hba) (not_lt.mp hab)
          subst hEq
          constructor
          · intro h
            exact List.Lex.cons ((ih bs).mp (by simpa [charListLt, hab, hba] using h))
          · intro h
            cases h with
            | cons h' => simpa [charListLt, hab, hba] using (ih bs).mpr h'
            | rel h' => exact absurd h' hab

theorem strLt_iff (a b : String) : strLt a b = true ↔ a < b :=
  (charListLt_iff a.data b.data).trans String.lt_iff_toList_lt.symm

theorem mem_getLinksFromNodes {nodes : List Node} {l : Link} :
    l ∈ getLinksFromNodes nodes ↔
      ∃ n ∈ nodes, ∃ t ∈ n.connections, strLt n.id t = true ∧
        l = { source := n.id, target := t, value := 1 } := by
  induction nodes with
  | nil => simp [getLinksFromNodes]
  | cons n rest ih =>
    simp only [getLinksFromNodes, List.mem_append, List.mem_map, List.mem_filter, ih,
      List.mem_cons]
    constructor
    · rintro (⟨t, ⟨ht, hlt⟩, rfl⟩ | ⟨m, hm, t, ht, hlt, rfl⟩)
      · exact ⟨n, Or.inl rfl, t, ht, hlt, rfl⟩
      · exact ⟨m, Or.inr hm, t, ht, hlt, rfl⟩
    · rintro ⟨m, hm | hm, t, ht, hlt, rfl⟩
      · exact Or.inl ⟨t, ⟨by rw [hm] at ht; exact ht, by rw [hm] at hlt; exact hlt⟩, by rw [hm]⟩
      · exact Or.inr ⟨m, hm, t, ht, hlt, rfl⟩

/-- C10: unconditional link-output hygiene.  For every node list, however
ill-formed its adjacency, every link emitted by `getLinksFromNodes` has
source strictly below target in the string order (hence it is never a
self-loop), carries value 1, and the same unordered pair is never also
emitted in the reverse direction. -/
theorem getLinksFromNodes_hygiene (nodes : List Node) (l : Link)
    (hl : l ∈ getLinksFromNodes nodes) :
    l.source < l.target ∧ l.source ≠ l.target ∧ l.value = 1 ∧
      ∀ l' ∈ getLinksFromNodes nodes,
        ¬(l'.source = l.target ∧ l'.target = l.source) := by
  obtain ⟨n, _, t, _, hlt, rfl⟩ := mem_getLinksFromNodes.mp hl
  have hst : n.id < t := (strLt_iff _ _).mp hlt
  refine ⟨hst, ne_of_lt hst, rfl, ?_⟩
  rintro l' hl' ⟨h1, h2⟩
  obtain ⟨m, _, u, _, hlt', rfl⟩ := mem_getLinksFromNodes.mp hl'
  have hmu : m.id < u := (strLt_iff _ _).mp hlt'
  simp only at h1 h2
  rw [h1] at hmu
  rw [h2] at hmu
  exact absurd hst (asymm hmu)

theorem getLinksFromNodes_hygiene_witness :
    ({ source := "a", target := "b", value := 1 } : Link) ∈ getLinksFromNodes demoNodes ∧
      ("a" : String) < "b" ∧ ("a" : String) ≠ "b" ∧
      ∀ l' ∈ getLinksFromNodes demoNodes, ¬(l'.source = "b" ∧ l'.target = "a") := by
  have hmem : ({ source := "a", target := "b", value := 1 } : Link) ∈ getLinksFromNodes demoNodes := by
    decide
  have h := getLinksFromNodes_hygiene demoNodes { source := "a", target := "b", value := 1 } hmem
  exact ⟨hmem, h.1, h.2.1, h.2.2.2⟩

/-- C5: `addNewNode` appends exactly one node, with the supplied fresh
identity (the `nanoid()` oracle), empty adjacency, and leaves every
pre-existing node — in particular its adjacency — untouched (no auto-link). -/
theorem addNewNode_appends (newId : String) (rand3 : Nat) (nodes : List Node)
    (hfresh : ∀ n ∈ nodes, n.id ≠ newId) :
    ∃ newNode : Node,
      addNewNode newId rand3 nodes = nodes ++ [newNode] ∧
      newNode.connections = [] ∧ newNode.id = newId ∧
      (∀ n ∈ nodes, n.id ≠ newNode.id) ∧
      (∀ i, i < nodes.length → nodeAt (addNewNode newId rand3 nodes) i = nodeAt nodes i) := by
  refine ⟨_, rfl, rfl, rfl, hfresh, ?_⟩
  intro i hi
  unfold addNewNode nodeAt
  rw [List.getD_eq_getElem?_getD, List.getD_eq_getElem?_getD,
    List.getElem?_append_left hi]

theorem addNewNode_appends_witness :
    (∀ n ∈ [nodeA], n.id ≠ "b") ∧
      ∃ newNode : Node,
        addNewNode "b" 0 [nodeA] = [nodeA] ++ [newNode] ∧
        newNode.connections = [] ∧ newNode.id = "b" ∧
        (∀ n ∈ [nodeA], n.id ≠ newNode.id) ∧
        (∀ i, i < [nodeA].length → nodeAt (addNewNode "b" 0 [nodeA]) i = nodeAt [nodeA] i) :=
  ⟨by decide, addNewNode_appends "b" 0 [nodeA] (by decide)⟩

/-- C6: the drag-end handler clears the dragged node's fixed position
(`fx`/`fy` become unset, so the node is force-driven again on the next
tick), leaves its current position and velocity in place, and restores
`alphaTarget` to 0 exactly when no other drag gesture is active. -/
theorem dragended_unpins (active : Bool) (alphaTarget : ℚ) (subject : Node) :
    (dragended active alphaTarget subject).2.fx = none ∧
    (dragended active alphaTarget subject).2.fy = none ∧
    (dragended active alphaTarget subject).2.x = subject.x ∧
    (dragended active alphaTarget subject).2.y = subject.y ∧
    (dragended false alphaTarget subject).1 = 0 ∧
    (dragended true alphaTarget subject).1 = alphaTarget :=
  ⟨rfl, rfl, rfl, rfl, rfl, rfl⟩

theorem tickCooling_closed_form (n : Nat) :
    (tickCooling^[n] initialSimulationState).alpha = (1 - alphaDecayDefault) ^ n ∧
    (tickCooling^[n] initialSimulationState).alphaTarget = 0 := by
  induction n with
  | zero => simp [initialSimulationState]
  | succ n ih =>
    rw [Function.iterate_succ_apply']
    obtain ⟨h1, h2⟩ := ih
    constructor
    · show (tickCooling _).alpha = _
      simp only [tickCooling, h1, h2]
      ring
    · show (tickCooling _).alphaTarget = 0
      simpa only [tickCooling] using h2

theorem tickCooling_running_of_lt (s : SimulationState)
    (h : (tickCooling s).alpha < alphaMinDefault) : (tickCooling s).running = false := by
  unfold tickCooling at h ⊢
  simp only at h ⊢
  rw [if_pos h]

/-- C7: modelled from the spec (the d3-force integrator is library code
outside `src/`): iterating the cooling update from alpha = 1 with
alphaTarget = 0 and the default decay rate 0.0228 brings alpha below
alphaMin = 0.001 within 400 ticks, at which point the integrator has
transitioned Running → Idle. -/
theorem cooling_converges_within_400 :
    (tickCooling^[400] initialSimulationState).alpha < alphaMinDefault ∧
    (tickCooling^[400] initialSimulationState).running = false := by
  have h400 : (tickCooling^[400] initialSimulationState).alpha < alphaMinDefault := by
    rw [(tickCooling_closed_form 400).1]
    unfold alphaDecayDefault alphaMinDefault
    norm_num
  refine ⟨h400, ?_⟩
  rw [show (400 : Nat) = 399 + 1 from rfl, Function.iterate_succ_apply'] at h400 ⊢
  exact tickCooling_running_of_lt _ h400

/-- C8: modelled from the spec (d3's `forceManyBody` is library code
outside `src/`): with any positive minimum-distance floor, the repulsion
computation is total — even for two exactly coinciding nodes the explicit
division never hits a zero denominator, so no Infinity/NaN force arises. -/
theorem chargeForce_total (strength distanceMin2 x1 y1 x2 y2 : ℚ)
    (hmin : 0 < distanceMin2) :
    ∃ f, chargeForce strength distanceMin2 x1 y1 x2 y2 = some f := by
  simp only [chargeForce, safeDiv]
  have hne : max ((x2 - x1) * (x2 - x1) + (y2 - y1) * (y2 - y1)) distanceMin2 ≠ 0 := by
    have hle : distanceMin2 ≤ max ((x2 - x1) * (x2 - x1) + (y2 - y1) * (y2 - y1)) distanceMin2 :=
      le_max_right _ _
    exact ne_of_gt (lt_of_lt_of_le hmin hle)
  rw [if_neg hne]
  exact ⟨_, rfl⟩

theorem chargeForce_total_witness :
    (0 : ℚ) < 1 ∧ ∃ f, chargeForce (-1000) 1 0 0 0 0 = some f :=
  ⟨by norm_num, chargeForce_total (-1000) 1 0 0 0 0 (by norm_num)⟩

theorem nodeAt_eq_getElem {l : List Node} {i : Nat} (h : i < l.length) :
    nodeAt l i = l[i] := by
  simp [nodeAt, List.getD_eq_getElem?_getD, List.getElem?_eq_getElem h]

theorem nodeAt_set_self {l : List Node} {i : Nat} {v : Node} (h : i < l.length) :
    nodeAt (l.set i v) i = v := by
  rw [nodeAt, List.getD_eq_getElem?_getD, List.getElem?_set]
  simp [h]

theorem nodeAt_set_ne {l : List Node} {i j : Nat} {v : Node} (h : i ≠ j) :
    nodeAt (l.set i v) j = nodeAt l j := by
  rw [nodeAt, nodeAt, List.getD_eq_getElem?_getD, List.getD_eq_getElem?_getD,
    List.getElem?_set_ne h]

theorem set_nodeAt_self {l : List Node} {i : Nat} (h : i < l.length) :
    l.set i (nodeAt l i) = l := by
  apply List.ext_getElem?
  intro j
  rw [List.getElem?_set]
  by_cases hij : i = j
  · subst hij
    simp [nodeAt_eq_getElem h, h, List.getElem?_eq_getElem h]
  · simp [hij]

theorem mem_iff_nodeAt {l : List Node} {a : Node} :
    a ∈ l ↔ ∃ i, i < l.length ∧ nodeAt l i = a := by
  rw [List.mem_iff_getElem]
  constructor
  · rintro ⟨i, h, rfl⟩
    exact ⟨i, h, nodeAt_eq_getElem h⟩
  · rintro ⟨i, h, rfl⟩
    exact ⟨i, h, (nodeAt_eq_getElem h).symm⟩

theorem findIndex_some_lt {p : Node → Bool} {l : List Node} {i : Nat}
    (h : findIndex p l = some i) : i < l.length := by
  induction l generalizing i with
  | nil => simp [findIndex] at h
  | cons n rest ih =>
    by_cases hp : p n = true
    · rw [findIndex, if_pos hp] at h
      cases h
      simp
    · rw [findIndex, if_neg hp] at h
      cases hfr : findIndex p rest with
      | none => rw [hfr] at h; simp at h
      | some j =>
        rw [hfr] at h
        simp only [Option.map_some'] at h
        cases h
        exact Nat.succ_lt_succ (ih hfr)

theorem findIndex_some_prop {p : Node → Bool} {l : List Node} {i : Nat}
    (h : findIndex p l = some i) : p (nodeAt l i) = true := by
  induction l generalizing i with
  | nil => simp [findIndex] at h
  | cons n rest ih =>
    by_cases hp : p n = true
    · rw [findIndex, if_pos hp] at h
      cases h
      simpa [nodeAt] using hp
    · rw [findIndex, if_neg hp] at h
      cases hfr : findIndex p rest with
      | none => rw [hfr] at h; simp at h
      | some j =>
        rw [hfr] at h
        simp only [Option.map_some'] at h
        cases h
        simpa [nodeAt] using ih hfr

theorem findIndex_id_eq {nodes : List Node} {x : String} {i : Nat}
    (h : findIndex (fun n => n.id == x) nodes = some i) : (nodeAt nodes i).id = x := by
  have := findIndex_some_prop h
  simpa using this

theorem findIndex_congr_ids {l₁ l₂ : List Node} (h : l₁.map Node.id = l₂.map Node.id)
    (x : String) :
    findIndex (fun n => n.id == x) l₁ = findIndex (fun n => n.id == x) l₂ := by
  induction l₁ generalizing l₂ with
  | nil =>
    cases l₂ with
    | nil => rfl
    | cons b bs => simp at h
  | cons a as ih =>
    cases l₂ with
    | nil => simp at h
    | cons b bs =>
      simp only [List.map_cons, List.cons.injEq] at h
      rw [findIndex, findIndex, h.1, ih h.2]

theorem toggleConnection_not_found {nodes : List Node} {s t : String}
    (h : findIndex (fun n => n.id == s) nodes = none ∨
         findIndex (fun n => n.id == t) nodes = none) :
    toggleConnection nodes s t = nodes := by
  rcases h with h | h
  · simp only [toggleConnection, h]
  · cases hfs : findIndex (fun n => n.id == s) nodes <;>
      simp only [toggleConnection, hfs, h]

theorem node_eta (n : Node) : ({ n with connections := n.connections } : Node) = n := rfl

theorem contains_iff {l : List String} {x : String} : l.contains x = true ↔ x ∈ l := by
  show l.elem x = true ↔ x ∈ l
  simp [List.elem_eq_mem]

theorem contains_eq_false_iff {l : List String} {x : String} :
    l.contains x = false ↔ x ∉ l := by
  rw [← Bool.not_eq_true, contains_iff]

theorem filter_ne_of_not_contains {l : List String} {x : String}
    (h : l.contains x = false) : l.filter (fun y => y != x) = l := by
  have hx : x ∉ l := contains_eq_false_iff.mp h
  rw [List.filter_eq_self]
  intro a ha
  simp only [bne_iff_ne, ne_eq]
  exact fun hax => hx (hax ▸ ha)

theorem toggleConnection_char {nodes : List Node} {s t : String} {si ti : Nat}
    (hs : findIndex (fun n => n.id == s) nodes = some si)
    (ht : findIndex (fun n => n.id == t) nodes = some ti)
    (hne : si ≠ ti) :
    toggleConnection nodes s t =
      (nodes.set si { nodeAt nodes si with
          connections :=
            toggledConns (nodeAt nodes si).connections (nodeAt nodes ti).connections t s }).set
        ti
        { nodeAt nodes ti with
          connections :=
            toggledConns (nodeAt nodes ti).connections (nodeAt nodes si).connections s t } := by
  have hsi : si < nodes.length := findIndex_some_lt hs
  have hti : ti < nodes.length := findIndex_some_lt ht
  simp only [toggleConnection, hs, ht]
  by_cases hc1 : (nodeAt nodes si).connections.contains t = true
  · by_cases hc2 : (nodeAt nodes ti).connections.contains s = true
    · simp only [toggledConns, hc1, hc2, Bool.true_or, Bool.or_true, eq_self_iff_true,
        if_true, nodeAt_set_ne hne]
    · have hc2' : (nodeAt nodes ti).connections.contains s = false := by
        simpa using hc2
      simp only [toggledConns, hc1, hc2', Bool.true_or, Bool.or_true, Bool.or_false,
        Bool.false_or, eq_self_iff_true, if_true, nodeAt_set_ne hne, Bool.false_eq_true,
        if_false]
      rw [filter_ne_of_not_contains hc2', node_eta]
      rw [← nodeAt_set_ne (v := { nodeAt nodes si with
            connections := (nodeAt nodes si).connections.filter (fun id => id != t) }) hne,
        set_nodeAt_self (by simpa using hti)]
  · have hc1' : (nodeAt nodes si).connections.contains t = false := by simpa using hc1
    by_cases hc2 : (nodeAt nodes ti).connections.contains s = true
    · simp only [toggledConns, hc1', hc2, Bool.true_or, Bool.or_true, Bool.or_false,
        Bool.false_or, eq_self_iff_true, if_true, nodeAt_set_ne hne, Bool.false_eq_true,
        if_false]
      rw [filter_ne_of_not_contains hc1', node_eta, set_nodeAt_self hsi]
    · have hc2' : (nodeAt nodes ti).connections.contains s = false := by simpa using hc2
      simp only [toggledConns, hc1', hc2', Bool.or_self, Bool.false_or, Bool.or_false,
        Bool.false_eq_true, if_false, nodeAt_set_ne hne]

theorem toggleConnection_char_self {nodes : List Node} {s t : String} {si : Nat}
    (hs : findIndex (fun n => n.id == s) nodes = some si)
    (ht : findIndex (fun n => n.id == t) nodes = some si) :
    s = t ∧
    toggleConnection nodes s t =
      nodes.set si { nodeAt nodes si with
        connections :=
          if (nodeAt nodes si).connections.contains s = true then
            (nodeAt nodes si).connections.filter (fun x => x != s)
          else
            (nodeAt nodes si).connections ++ [t, s] } := by
  have hid_s : (nodeAt nodes si).id = s := findIndex_id_eq hs
  have hid_t : (nodeAt nodes si).id = t := findIndex_id_eq ht
  have hst : s = t := hid_s.symm.trans hid_t
  subst hst
  refine ⟨rfl, ?_⟩
  have hsi : si < nodes.length := findIndex_some_lt hs
  simp only [toggleConnection, hs, ht]
  by_cases hc : (nodeAt nodes si).connections.contains s = true
  · simp only [hc, Bool.or_self, eq_self_iff_true, if_true]
    rw [nodeAt_set_self hsi]
    have hf : s ∉ (nodeAt nodes si).connections.filter (fun id => id != s) := by
      intro hmem
      have := (List.mem_filter.mp hmem).2
      simp at this
    have hfc : ((nodeAt nodes si).connections.filter (fun id => id != s)).contains s = false :=
      contains_eq_false_iff.mpr hf
    simp only [hfc, Bool.false_eq_true, if_false]
  · have hc' : (nodeAt nodes si).connections.contains s = false := by simpa using hc
    simp only [hc', Bool.or_self, Bool.false_eq_true, if_false]
    rw [nodeAt_set_self hsi, List.set_set]
    simp [List.append_assoc]

theorem sameExceptConnections_refl (n : Node) : sameExceptConnections n n :=
  ⟨rfl, rfl, rfl, rfl, rfl, rfl, rfl, rfl, rfl⟩

theorem toggleConnection_length (nodes : List Node) (s t : String) :
    (toggleConnection nodes s t).length = nodes.length := by
  cases hfs : findIndex (fun n => n.id == s) nodes with
  | none => rw [toggleConnection_not_found (Or.inl hfs)]
  | some si =>
    cases hft : findIndex (fun n => n.id == t) nodes with
    | none => rw [toggleConnection_not_found (Or.inr hft)]
    | some ti =>
      by_cases hne : si = ti
      · subst hne
        rw [(toggleConnection_char_self hfs hft).2]
        simp
      · rw [toggleConnection_char hfs hft hne]
        simp

/-- C9: frame property of edge toggling.  `toggleConnection` preserves the
length of the node list, changes no field other than `connections` of any
node, and leaves every node whose id is neither `source` nor `target`
entirely unchanged — for arbitrary node lists, with no well-formedness
assumptions. -/
theorem toggleConnection_frame (nodes : List Node) (s t : String) (j : Nat)
    (hj : j < nodes.length) :
    (toggleConnection nodes s t).length = nodes.length ∧
    sameExceptConnections (nodeAt nodes j) (nodeAt (toggleConnection nodes s t) j) ∧
    ((nodeAt nodes j).id ≠ s → (nodeAt nodes j).id ≠ t →
      nodeAt (toggleConnection nodes s t) j = nodeAt nodes j) := by
  refine ⟨toggleConnection_length nodes s t, ?_⟩
  cases hfs : findIndex (fun n => n.id == s) nodes with
  | none =>
    rw [toggleConnection_not_found (Or.inl hfs)]
    exact ⟨sameExceptConnections_refl _, fun _ _ => rfl⟩
  | some si =>
    cases hft : findIndex (fun n => n.id == t) nodes with
    | none =>
      rw [toggleConnection_not_found (Or.inr hft)]
      exact ⟨sameExceptConnections_refl _, fun _ _ => rfl⟩
    | some ti =>
      have hids : (nodeAt nodes si).id = s := findIndex_id_eq hfs
      have hidt : (nodeAt nodes ti).id = t := findIndex_id_eq hft
      by_cases hne : si = ti
      · subst hne
        rw [(toggleConnection_char_self hfs hft).2]
        by_cases hjsi : j = si
        · subst hjsi
          rw [nodeAt_set_self hj]
          refine ⟨⟨rfl, rfl, rfl, rfl, rfl, rfl, rfl, rfl, rfl⟩, ?_⟩
          intro hns _
          exact absurd hids hns
        · rw [nodeAt_set_ne (fun h => hjsi h.symm)]
          exact ⟨sameExceptConnections_refl _, fun _ _ => rfl⟩
      · rw [toggleConnection_char hfs hft hne]
        by_cases hjti : j = ti
        · subst hjti
          rw [nodeAt_set_self (by simpa using findIndex_some_lt hft)]
          refine ⟨⟨rfl, rfl, rfl, rfl, rfl, rfl, rfl, rfl, rfl⟩, ?_⟩
          intro _ hnt
          exact absurd hidt hnt
        · rw [nodeAt_set_ne (fun h => hjti h.symm)]
          by_cases hjsi : j = si
          · subst hjsi
            rw [nodeAt_set_self (findIndex_some_lt hfs)]
            refine ⟨⟨rfl, rfl, rfl, rfl, rfl, rfl, rfl, rfl, rfl⟩, ?_⟩
            intro hns _
            exact absurd hids hns
          · rw [nodeAt_set_ne (fun h => hjsi h.symm)]
            exact ⟨sameExceptConnections_refl _, fun _ _ => rfl⟩

theorem toggleConnection_frame_witness :
    (0 : Nat) < demoNodes.length ∧
    (toggleConnection demoNodes "a" "b").length = demoNodes.length ∧
    sameExceptConnections (nodeAt demoNodes 0) (nodeAt (toggleConnection demoNodes "a" "b") 0) ∧
    ((nodeAt demoNodes 0).id ≠ "a" → (nodeAt demoNodes 0).id ≠ "b" →
      nodeAt (toggleConnection demoNodes "a" "b") 0 = nodeAt demoNodes 0) :=
  ⟨by decide, toggleConnection_frame demoNodes "a" "b" 0 (by decide)⟩

theorem nodeAt_id_inj {nodes : List Node} (hids : (nodes.map Node.id).Nodup)
    {i j : Nat} (hi : i < nodes.length) (hj : j < nodes.length)
    (h : (nodeAt nodes i).id = (nodeAt nodes j).id) : i = j := by
  have hi' : i < (nodes.map Node.id).length := by simpa using hi
  have hj' : j < (nodes.map Node.id).length := by simpa using hj
  have hmap : (nodes.map Node.id)[i] = (nodes.map Node.id)[j] := by
    rw [List.getElem_map, List.getElem_map, ← nodeAt_eq_getElem hi, ← nodeAt_eq_getElem hj]
    exact h
  exact (hids.getElem_inj_iff).mp hmap

theorem nodeAt_set_conns_id {nodes : List Node} {si : Nat} {cA : List String}
    (hsi : si < nodes.length) (j : Nat) :
    (nodeAt (nodes.set si { nodeAt nodes si with connections := cA }) j).id =
      (nodeAt nodes j).id := by
  by_cases hjsi : j = si
  · subst hjsi
    rw [nodeAt_set_self hsi]
  · rw [nodeAt_set_ne (fun h => hjsi h.symm)]

theorem nodeAt_set_conns_conns {nodes : List Node} {si : Nat} {cA : List String}
    (hsi : si < nodes.length) (j : Nat) :
    (nodeAt (nodes.set si { nodeAt nodes si with connections := cA }) j).connections =
      if j = si then cA else (nodeAt nodes j).connections := by
  by_cases hjsi : j = si
  · subst hjsi
    rw [nodeAt_set_self hsi, if_pos rfl]
  · rw [nodeAt_set_ne (fun h => hjsi h.symm), if_neg hjsi]

theorem nodeAt_set_set_id {nodes : List Node} {si ti : Nat} {cA cB : List String}
    (hsi : si < nodes.length) (hti : ti < nodes.length) (j : Nat) :
    (nodeAt ((nodes.set si { nodeAt nodes si with connections := cA }).set ti
        { nodeAt nodes ti with connections := cB }) j).id = (nodeAt nodes j).id := by
  by_cases hjti : j = ti
  · subst hjti
    rw [nodeAt_set_self (by simpa using hti)]
  · rw [nodeAt_set_ne (fun h => hjti h.symm)]
    exact nodeAt_set_conns_id hsi j

theorem nodeAt_set_set_conns {nodes : List Node} {si ti : Nat} {cA cB : List String}
    (hsi : si < nodes.length) (hti : ti < nodes.length) (j : Nat) :
    (nodeAt ((nodes.set si { nodeAt nodes si with connections := cA }).set ti
        { nodeAt nodes ti with connections := cB }) j).connections =
      if j = ti then cB
      else if j = si then cA
      else (nodeAt nodes j).connections := by
  by_cases hjti : j = ti
  · subst hjti
    rw [nodeAt_set_self (by simpa using hti), if_pos rfl]
  · rw [nodeAt_set_ne (fun h => hjti h.symm), if_neg hjti]
    exact nodeAt_set_conns_conns hsi j

/-- C1: adjacency symmetry is an invariant of edge toggling.  Under the
data model's unique-identity invariant, if adjacency is symmetric then it
is still symmetric after any `toggleConnection` call — for every pair of
ids, including equal ids and ids absent from the graph. -/
theorem toggleConnection_preserves_symm (nodes : List Node) (s t : String)
    (hids : (nodes.map Node.id).Nodup) (hsym : Symm nodes) :
    Symm (toggleConnection nodes s t) := by
  cases hfs : findIndex (fun n => n.id == s) nodes with
  | none => rw [toggleConnection_not_found (Or.inl hfs)]; exact hsym
  | some si =>
  cases hft : findIndex (fun n => n.id == t) nodes with
  | none => rw [toggleConnection_not_found (Or.inr hft)]; exact hsym
  | some ti =>
  have hsi : si < nodes.length := findIndex_some_lt hfs
  have hti : ti < nodes.length := findIndex_some_lt hft
  have hid_s : (nodeAt nodes si).id = s := findIndex_id_eq hfs
  have hid_t : (nodeAt nodes ti).id = t := findIndex_id_eq hft
  have hmemN : ∀ j, j < nodes.length → nodeAt nodes j ∈ nodes := fun j hj =>
    mem_iff_nodeAt.mpr ⟨j, hj, rfl⟩
  have hsymIdx : ∀ i j, i < nodes.length → j < nodes.length →
      (nodeAt nodes j).id ∈ (nodeAt nodes i).connections →
      (nodeAt nodes i).id ∈ (nodeAt nodes j).connections :=
    fun i j hi hj h => hsym _ (hmemN i hi) _ (hmemN j hj) h
  by_cases hne : si = ti
  · -- both ids resolve to the same node object (hence s = t)
    subst hne
    obtain ⟨hst, hchar⟩ := toggleConnection_char_self hfs hft
    subst hst
    rw [hchar]
    unfold Symm
    intro a' ha' b' hb' hba
    rw [mem_iff_nodeAt] at ha' hb'
    obtain ⟨ja, hja, rfl⟩ := ha'
    obtain ⟨jb, hjb, rfl⟩ := hb'
    rw [List.length_set] at hja hjb
    rw [nodeAt_set_conns_id hsi jb, nodeAt_set_conns_conns hsi ja] at hba
    rw [nodeAt_set_conns_id hsi ja, nodeAt_set_conns_conns hsi jb]
    by_cases hcs : (nodeAt nodes si).connections.contains s = true
    · -- the node already lists itself: both occurrences are removed
      rw [if_pos hcs] at hba ⊢
      by_cases hjasi : ja = si
      · subst hjasi
        rw [if_pos rfl] at hba
        have h1 : (nodeAt nodes jb).id ∈ (nodeAt nodes ja).connections :=
          (List.mem_filter.mp hba).1
        have h2 : (nodeAt nodes jb).id ≠ s :=
          bne_iff_ne.mp (List.mem_filter.mp hba).2
        by_cases hjbsi : jb = ja
        · subst hjbsi
          exact absurd hid_s h2
        · rw [if_neg hjbsi]
          exact hsymIdx ja jb hja hjb h1
      · rw [if_neg hjasi] at hba
        have g0 := hsymIdx ja jb hja hjb hba
        by_cases hjbsi : jb = si
        · subst hjbsi
          rw [if_pos rfl]
          refine List.mem_filter.mpr ⟨g0, bne_iff_ne.mpr ?_⟩
          intro heq
          exact hjasi (nodeAt_id_inj hids hja hjb (by rw [heq, hid_s]))
        · rw [if_neg hjbsi]
          exact g0
    · -- the node does not list itself: its id is appended twice
      rw [if_neg hcs] at hba ⊢
      have hnsc : s ∉ (nodeAt nodes si).connections :=
        contains_eq_false_iff.mp (by simpa using hcs)
      by_cases hjasi : ja = si
      · subst hjasi
        rw [if_pos rfl] at hba
        rcases List.mem_append.mp hba with h1 | h2
        · by_cases hjbsi : jb = ja
          · subst hjbsi
            rw [if_pos rfl]
            exact List.mem_append_left _ h1
          · rw [if_neg hjbsi]
            exact hsymIdx ja jb hja hjb h1
        · have hjbeq : jb = ja := by
            have h2' : (nodeAt nodes jb).id = s := by simpa using h2
            exact nodeAt_id_inj hids hjb hja (by rw [h2', hid_s])
          subst hjbeq
          rw [if_pos rfl]
          refine List.mem_append_right _ ?_
          rw [hid_s]
          simp
      · rw [if_neg hjasi] at hba
        have g0 := hsymIdx ja jb hja hjb hba
        by_cases hjbsi : jb = si
        · subst hjbsi
          rw [if_pos rfl]
          exact List.mem_append_left _ g0
        · rw [if_neg hjbsi]
          exact g0
  · -- two distinct node objects
    rw [toggleConnection_char hfs hft hne]
    have hst : s ≠ t := fun h => hne (nodeAt_id_inj hids hsi hti (by rw [hid_s, hid_t, h]))
    unfold Symm
    intro a' ha' b' hb' hba
    rw [mem_iff_nodeAt] at ha' hb'
    obtain ⟨ja, hja, rfl⟩ := ha'
    obtain ⟨jb, hjb, rfl⟩ := hb'
    simp only [List.length_set] at hja hjb
    rw [nodeAt_set_set_id hsi hti jb, nodeAt_set_set_conns hsi hti ja] at hba
    rw [nodeAt_set_set_id hsi hti ja, nodeAt_set_set_conns hsi hti jb]
    by_cases hmt : t ∈ (nodeAt nodes si).connections
    · -- the edge exists: both directions are removed
      have hms : s ∈ (nodeAt nodes ti).connections := by
        have := hsymIdx si ti hsi hti (by rw [hid_t]; exact hmt)
        rwa [hid_s] at this
      have hb1 : (nodeAt nodes si).connections.contains t = true := contains_iff.mpr hmt
      have hb2 : (nodeAt nodes ti).connections.contains s = true := contains_iff.mpr hms
      have hcA : toggledConns (nodeAt nodes si).connections (nodeAt nodes ti).connections t s =
          (nodeAt nodes si).connections.filter (fun x => x != t) := by
        simp only [toggledConns, hb1, Bool.true_or, eq_self_iff_true, if_true]
      have hcB : toggledConns (nodeAt nodes ti).connections (nodeAt nodes si).connections s t =
          (nodeAt nodes ti).connections.filter (fun x => x != s) := by
        simp only [toggledConns, hb2, Bool.true_or, eq_self_iff_true, if_true]
      rw [hcA, hcB] at hba ⊢
      by_cases hjati : ja = ti
      · subst hjati
        rw [if_pos rfl] at hba
        have h1 : (nodeAt nodes jb).id ∈ (nodeAt nodes ja).connections :=
          (List.mem_filter.mp hba).1
        have h2 : (nodeAt nodes jb).id ≠ s :=
          bne_iff_ne.mp (List.mem_filter.mp hba).2
        by_cases hjbti : jb = ja
        · subst hjbti
          rw [if_pos rfl]
          refine List.mem_filter.mpr ⟨h1, bne_iff_ne.mpr ?_⟩
          rw [hid_t]
          exact Ne.symm hst
        · by_cases hjbsi : jb = si
          · subst hjbsi
            exact absurd hid_s h2
          · rw [if_neg hjbti, if_neg hjbsi]
            exact hsymIdx ja jb hja hjb h1
      · by_cases hjasi : ja = si
        · subst hjasi
          rw [if_neg hjati, if_pos rfl] at hba
          have h1 : (nodeAt nodes jb).id ∈ (nodeAt nodes ja).connections :=
            (List.mem_filter.mp hba).1
          have h2 : (nodeAt nodes jb).id ≠ t :=
            bne_iff_ne.mp (List.mem_filter.mp hba).2
          by_cases hjbti : jb = ti
          · subst hjbti
            exact absurd hid_t h2
          · by_cases hjbsi : jb = ja
            · subst hjbsi
              rw [if_neg hjbti, if_pos rfl]
              refine List.mem_filter.mpr ⟨h1, bne_iff_ne.mpr ?_⟩
              rw [hid_s]
              exact hst
            · rw [if_neg hjbti, if_neg hjbsi]
              exact hsymIdx ja jb hja hjb h1
        · rw [if_neg hjati, if_neg hjasi] at hba
          have g0 := hsymIdx ja jb hja hjb hba
          by_cases hjbti : jb = ti
          · subst hjbti
            rw [if_pos rfl]
            refine List.mem_filter.mpr ⟨g0, bne_iff_ne.mpr ?_⟩
            intro heq
            exact hjasi (nodeAt_id_inj hids hja hsi (by rw [heq, hid_s]))
          · by_cases hjbsi : jb = si
            · subst hjbsi
              rw [if_neg hjbti, if_pos rfl]
              refine List.mem_filter.mpr ⟨g0, bne_iff_ne.mpr ?_⟩
              intro heq
              exact hjati (nodeAt_id_inj hids hja hti (by rw [heq, hid_t]))
            · rw [if_neg hjbti, if_neg hjbsi]
              exact g0
    · -- the edge is absent: it is added in both directions
      have hms : s ∉ (nodeAt nodes ti).connections := by
        intro hs'
        apply hmt
        have := hsymIdx ti si hti hsi (by rw [hid_s]; exact hs')
        rwa [hid_t] at this
      have hb1 : (nodeAt nodes si).connections.contains t = false :=
        contains_eq_false_iff.mpr hmt
      have hb2 : (nodeAt nodes ti).connections.contains s = false :=
        contains_eq_false_iff.mpr hms
      have hcA : toggledConns (nodeAt nodes si).connections (nodeAt nodes ti).connections t s =
          (nodeAt nodes si).connections ++ [t] := by
        simp only [toggledConns, hb1, hb2, Bool.or_self, Bool.false_eq_true, if_false]
      have hcB : toggledConns (nodeAt nodes ti).connections (nodeAt nodes si).connections s t =
          (nodeAt nodes ti).connections ++ [s] := by
        simp only [toggledConns, hb1, hb2, Bool.or_self, Bool.false_eq_true, if_false]
      rw [hcA, hcB] at hba ⊢
      by_cases hjati : ja = ti
      · subst hjati
        rw [if_pos rfl] at hba
        rcases List.mem_append.mp hba with h1 | h2
        · by_cases hjbti : jb = ja
          · subst hjbti
            rw [if_pos rfl]
            exact List.mem_append_left _ h1
          · by_cases hjbsi : jb = si
            · subst hjbsi
              rw [hid_s] at h1
              exact absurd h1 hms
            · rw [if_neg hjbti, if_neg hjbsi]
              exact hsymIdx ja jb hja hjb h1
        · have h2' : (nodeAt nodes jb).id = s := by simpa using h2
          have hjbeq : jb = si := nodeAt_id_inj hids hjb hsi (by rw [h2', hid_s])
          subst hjbeq
          rw [if_neg (fun h => hne h), if_pos rfl]
          refine List.mem_append_right _ ?_
          rw [hid_t]
          simp
      · by_cases hjasi : ja = si
        · subst hjasi
          rw [if_neg hjati, if_pos rfl] at hba
          rcases List.mem_append.mp hba with h1 | h2
          · by_cases hjbti : jb = ti
            · subst hjbti
              rw [hid_t] at h1
              exact absurd h1 hmt
            · by_cases hjbsi : jb = ja
              · subst hjbsi
                rw [if_neg hjbti, if_pos rfl]
                exact List.mem_append_left _ h1
              · rw [if_neg hjbti, if_neg hjbsi]
                exact hsymIdx ja jb hja hjb h1
          · have h2' : (nodeAt nodes jb).id = t := by simpa using h2
            have hjbeq : jb = ti := nodeAt_id_inj hids hjb hti (by rw [h2', hid_t])
            subst hjbeq
            rw [if_pos rfl]
            refine List.mem_append_right _ ?_
            rw [hid_s]
            simp
        · rw [if_neg hjati, if_neg hjasi] at hba
          have g0 := hsymIdx ja jb hja hjb hba
          by_cases hjbti : jb = ti
          · subst hjbti
            rw [if_pos rfl]
            exact List.mem_append_left _ g0
          · by_cases hjbsi : jb = si
            · subst hjbsi
              rw [if_neg hjbti, if_pos rfl]
              exact List.mem_append_left _ g0
            · rw [if_neg hjbti, if_neg hjbsi]
              exact g0

theorem toggleConnection_preserves_symm_witness :
    (demoNodes.map Node.id).Nodup ∧ Symm demoNodes ∧
      Symm (toggleConnection demoNodes "a" "b") :=
  ⟨by decide, by decide,
    toggleConnection_preserves_symm demoNodes "a" "b" (by decide) (by decide)⟩

theorem map_id_set_of_id_eq {nodes : List Node} {i : Nat} {v : Node}
    (h : v.id = (nodeAt nodes i).id) :
    (nodes.set i v).map Node.id = nodes.map Node.id := by
  apply List.ext_getElem?
  intro j
  rw [List.getElem?_map, List.getElem?_map, List.getElem?_set]
  by_cases hij : i = j
  · subst hij
    by_cases hlen : i < nodes.length
    · rw [if_pos rfl, if_pos hlen, List.getElem?_eq_getElem hlen]
      simp [h, nodeAt_eq_getElem hlen]
    · rw [if_pos rfl, if_neg hlen, List.getElem?_eq_none (Nat.le_of_not_lt hlen)]
  · rw [if_neg hij]

/-- Toggling the same endpoint pair twice restores the adjacency list up to
membership, provided the starting lists satisfy the pairwise symmetry
`b ∈ sc ↔ a ∈ tc` of the data model. -/
theorem toggledConns_toggle_mem {sc tc : List String} {a b : String}
    (hiff : b ∈ sc ↔ a ∈ tc) (x : String) :
    x ∈ toggledConns (toggledConns sc tc b a) (toggledConns tc sc a b) b a ↔ x ∈ sc := by
  by_cases hb : b ∈ sc
  · have ha : a ∈ tc := hiff.mp hb
    have hc1 : sc.contains b = true := contains_iff.mpr hb
    have hc2 : tc.contains a = true := contains_iff.mpr ha
    have hcA1 : toggledConns sc tc b a = sc.filter (fun x => x != b) := by
      simp only [toggledConns, hc1, Bool.true_or, eq_self_iff_true, if_true]
    have hcB1 : toggledConns tc sc a b = tc.filter (fun x => x != a) := by
      simp only [toggledConns, hc2, Bool.true_or, eq_self_iff_true, if_true]
    have hnb : b ∉ sc.filter (fun x => x != b) := by
      intro hmem
      have := (List.mem_filter.mp hmem).2
      simp at this
    have hna : a ∉ tc.filter (fun x => x != a) := by
      intro hmem
      have := (List.mem_filter.mp hmem).2
      simp at this
    have hc1' : (sc.filter (fun x => x != b)).contains b = false :=
      contains_eq_false_iff.mpr hnb
    have hc2' : (tc.filter (fun x => x != a)).contains a = false :=
      contains_eq_false_iff.mpr hna
    rw [hcA1, hcB1]
    have hcA2 : toggledConns (sc.filter (fun x => x != b)) (tc.filter (fun x => x != a)) b a =
        sc.filter (fun x => x != b) ++ [b] := by
      simp only [toggledConns, hc1', hc2', Bool.or_self, Bool.false_eq_true, if_false]
    rw [hcA2]
    simp only [List.mem_append, List.mem_filter, List.mem_singleton, bne_iff_ne, ne_eq]
    constructor
    · rintro (⟨h, _⟩ | rfl)
      · exact h
      · exact hb
    · intro h
      by_cases hxb : x = b
      · exact Or.inr hxb
      · exact Or.inl ⟨h, hxb⟩
  · have ha : a ∉ tc := fun h => hb (hiff.mpr h)
    have hc1 : sc.contains b = false := contains_eq_false_iff.mpr hb
    have hc2 : tc.contains a = false := contains_eq_false_iff.mpr ha
    have hcA1 : toggledConns sc tc b a = sc ++ [b] := by
      simp only [toggledConns, hc1, hc2, Bool.or_self, Bool.false_eq_true, if_false]
    have hcB1 : toggledConns tc sc a b = tc ++ [a] := by
      simp only [toggledConns, hc1, hc2, Bool.or_self, Bool.false_eq_true, if_false]
    rw [hcA1, hcB1]
    have hc1' : (sc ++ [b]).contains b = true :=
      contains_iff.mpr (List.mem_append_right _ (by simp))
    have hcA2 : toggledConns (sc ++ [b]) (tc ++ [a]) b a =
        (sc ++ [b]).filter (fun x => x != b) := by
      simp only [toggledConns, hc1', Bool.true_or, eq_self_iff_true, if_true]
    rw [hcA2, List.filter_append, filter_ne_of_not_contains hc1]
    simp

/-- C3: toggle-twice round trip.  For a graph state satisfying the data
model's symmetry invariant and two distinct ids, toggling the same pair
twice restores every node's adjacency set (and identity) to its prior
state. -/
theorem toggleConnection_twice_roundtrip (nodes : List Node) (a b : String)
    (hsym : Symm nodes) (hab : a ≠ b) :
    (toggleConnection (toggleConnection nodes a b) a b).length = nodes.length ∧
    ∀ j, j < nodes.length →
      (nodeAt (toggleConnection (toggleConnection nodes a b) a b) j).id =
        (nodeAt nodes j).id ∧
      ∀ x, x ∈ (nodeAt (toggleConnection (toggleConnection nodes a b) a b) j).connections ↔
        x ∈ (nodeAt nodes j).connections := by
  refine ⟨by rw [toggleConnection_length, toggleConnection_length], ?_⟩
  cases hfs : findIndex (fun n => n.id == a) nodes with
  | none =>
    rw [toggleConnection_not_found (Or.inl hfs), toggleConnection_not_found (Or.inl hfs)]
    exact fun j hj => ⟨rfl, fun x => Iff.rfl⟩
  | some si =>
  cases hft : findIndex (fun n => n.id == b) nodes with
  | none =>
    rw [toggleConnection_not_found (Or.inr hft), toggleConnection_not_found (Or.inr hft)]
    exact fun j hj => ⟨rfl, fun x => Iff.rfl⟩
  | some ti =>
  have hsi : si < nodes.length := findIndex_some_lt hfs
  have hti : ti < nodes.length := findIndex_some_lt hft
  have hid_s : (nodeAt nodes si).id = a := findIndex_id_eq hfs
  have hid_t : (nodeAt nodes ti).id = b := findIndex_id_eq hft
  have hne : si ≠ ti := fun h => hab (hid_s.symm.trans (h ▸ hid_t))
  have hmemN : ∀ j, j < nodes.length → nodeAt nodes j ∈ nodes := fun j hj =>
    mem_iff_nodeAt.mpr ⟨j, hj, rfl⟩
  have hiff : b ∈ (nodeAt nodes si).connections ↔ a ∈ (nodeAt nodes ti).connections := by
    constructor
    · intro h
      have := hsym _ (hmemN si hsi) _ (hmemN ti hti) (by rw [hid_t]; exact h)
      rwa [hid_s] at this
    · intro h
      have := hsym _ (hmemN ti hti) _ (hmemN si hsi) (by rw [hid_s]; exact h)
      rwa [hid_t] at this
  have hchar1 := toggleConnection_char hfs hft hne
  have hA_id : ({ nodeAt nodes si with
      connections :=
        toggledConns (nodeAt nodes si).connections (nodeAt nodes ti).connections b a } :
      Node).id = (nodeAt nodes si).id := rfl
  have hB_id : ({ nodeAt nodes ti with
      connections :=
        toggledConns (nodeAt nodes ti).connections (nodeAt nodes si).connections a b } :
      Node).id =
      (nodeAt (nodes.set si { nodeAt nodes si with
        connections :=
          toggledConns (nodeAt nodes si).connections (nodeAt nodes ti).connections b a })
        ti).id := by
    rw [nodeAt_set_ne hne]
  have hmap1 : (toggleConnection nodes a b).map Node.id = nodes.map Node.id := by
    rw [hchar1, map_id_set_of_id_eq hB_id, map_id_set_of_id_eq hA_id]
  have hfs1 : findIndex (fun n => n.id == a) (toggleConnection nodes a b) = some si :=
    (findIndex_congr_ids hmap1 a).trans hfs
  have hft1 : findIndex (fun n => n.id == b) (toggleConnection nodes a b) = some ti :=
    (findIndex_congr_ids hmap1 b).trans hft
  have hchar2 := toggleConnection_char hfs1 hft1 hne
  have hlen1 : (toggleConnection nodes a b).length = nodes.length :=
    toggleConnection_length nodes a b
  have hsi1 : si < (toggleConnection nodes a b).length := by rw [hlen1]; exact hsi
  have hti1 : ti < (toggleConnection nodes a b).length := by rw [hlen1]; exact hti
  have hR1si : nodeAt (toggleConnection nodes a b) si =
      { nodeAt nodes si with
        connections :=
          toggledConns (nodeAt nodes si).connections (nodeAt nodes ti).connections b a } := by
    rw [hchar1, nodeAt_set_ne (fun h => hne h.symm), nodeAt_set_self hsi]
  have hR1ti : nodeAt (toggleConnection nodes a b) ti =
      { nodeAt nodes ti with
        connections :=
          toggledConns (nodeAt nodes ti).connections (nodeAt nodes si).connections a b } := by
    rw [hchar1, nodeAt_set_self (by simpa using hti)]
  intro j hj
  constructor
  · rw [hchar2, nodeAt_set_set_id hsi1 hti1 j, hchar1, nodeAt_set_set_id hsi hti j]
  · intro x
    rw [hchar2, nodeAt_set_set_conns hsi1 hti1 j]
    by_cases hjti : j = ti
    · subst hjti
      rw [if_pos rfl, hR1si, hR1ti]
      exact toggledConns_toggle_mem hiff.symm x
    · rw [if_neg hjti]
      by_cases hjsi : j = si
      · subst hjsi
        rw [if_pos rfl, hR1si, hR1ti]
        exact toggledConns_toggle_mem hiff x
      · rw [if_neg hjsi, hchar1, nodeAt_set_ne (fun h => hjti h.symm),
          nodeAt_set_ne (fun h => hjsi h.symm)]

theorem toggleConnection_twice_roundtrip_witness :
    Symm demoNodes ∧ ("a" : String) ≠ "b" ∧
    ((toggleConnection (toggleConnection demoNodes "a" "b") "a" "b").length =
        demoNodes.length ∧
      ∀ j, j < demoNodes.length →
        (nodeAt (toggleConnection (toggleConnection demoNodes "a" "b") "a" "b") j).id =
          (nodeAt demoNodes j).id ∧
        ∀ x, x ∈ (nodeAt (toggleConnection (toggleConnection demoNodes "a" "b") "a" "b")
              j).connections ↔
          x ∈ (nodeAt demoNodes j).connections) :=
  ⟨by decide, by decide,
    toggleConnection_twice_roundtrip demoNodes "a" "b" (by decide) (by decide)⟩

theorem directedEdges_length (nodes : List Node) :
    (directedEdges nodes).length = totalDegree nodes := by
  induction nodes with
  | nil => rfl
  | cons n rest ih =>
    simp only [directedEdges, totalDegree, List.map_cons, List.sum_cons,
      List.length_append, List.length_map]
    simp only [totalDegree] at ih
    omega

theorem getLinksFromNodes_eq (nodes : List Node) :
    getLinksFromNodes nodes =
      ((directedEdges nodes).filter (fun e => strLt e.1 e.2)).map
        (fun e => { source := e.1, target := e.2, value := 1 }) := by
  induction nodes with
  | nil => rfl
  | cons n rest ih =>
    simp only [getLinksFromNodes, directedEdges, List.filter_append, List.map_append, ih]
    congr 1
    rw [List.filter_map, List.map_map]
    rfl

theorem mem_directedEdges {nodes : List Node} {p : String × String} :
    p ∈ directedEdges nodes ↔ ∃ n ∈ nodes, n.id = p.1 ∧ p.2 ∈ n.connections := by
  obtain ⟨p1, p2⟩ := p
  induction nodes with
  | nil => simp [directedEdges]
  | cons n rest ih =>
    simp only [directedEdges, List.mem_append, List.mem_map, ih, List.mem_cons,
      Prod.mk.injEq]
    constructor
    · rintro (⟨t, ht, rfl, rfl⟩ | ⟨m, hm, h1, h2⟩)
      · exact ⟨n, Or.inl rfl, rfl, ht⟩
      · exact ⟨m, Or.inr hm, h1, h2⟩
    · rintro ⟨m, hm | hm, h1, h2⟩
      · subst hm
        exact Or.inl ⟨p2, h2, h1, rfl⟩
      · exact Or.inr ⟨m, hm, h1, h2⟩

theorem nodup_directedEdges {nodes : List Node}
    (hids : (nodes.map Node.id).Nodup)
    (hconns : ∀ n ∈ nodes, n.connections.Nodup) :
    (directedEdges nodes).Nodup := by
  induction nodes with
  | nil => simp [directedEdges]
  | cons n rest ih =>
    simp only [directedEdges]
    simp only [List.map_cons] at hids
    apply List.Nodup.append
    · exact (hconns n (List.mem_cons_self n rest)).map
        (fun t₁ t₂ h => by simpa using congrArg Prod.snd h)
    · exact ih hids.of_cons (fun m hm => hconns m (List.mem_cons_of_mem _ hm))
    · intro e he1 he2
      obtain ⟨t, _, rfl⟩ := List.mem_map.mp he1
      obtain ⟨m, hm, h1, _⟩ := mem_directedEdges.mp he2
      have : n.id ∈ rest.map Node.id := List.mem_map.mpr ⟨m, hm, h1⟩
      exact (List.nodup_cons.mp hids).1 this

theorem swap_mem_directedEdges {nodes : List Node} (hsym : SymmClosed nodes)
    {p : String × String} (hp : p ∈ directedEdges nodes) :
    (p.2, p.1) ∈ directedEdges nodes := by
  obtain ⟨n, hn, h1, h2⟩ := mem_directedEdges.mp hp
  obtain ⟨b, hb, hbid, hback⟩ := hsym n hn p.2 h2
  refine mem_directedEdges.mpr ⟨b, hb, hbid, ?_⟩
  rw [← h1]
  exact hback

theorem ne_of_mem_directedEdges {nodes : List Node} (hself : NoSelfLoops nodes)
    {p : String × String} (hp : p ∈ directedEdges nodes) : p.1 ≠ p.2 := by
  obtain ⟨n, hn, h1, h2⟩ := mem_directedEdges.mp hp
  intro h
  apply hself n hn
  rw [h1, h]
  exact h2

theorem count_filter_lt {E : List (String × String)}
    (hnd : E.Nodup)
    (hswap : ∀ p ∈ E, (p.2, p.1) ∈ E)
    (hne : ∀ p ∈ E, p.1 ≠ p.2) :
    2 * (E.filter (fun e => strLt e.1 e.2)).length = E.length := by
  classical
  have hcard : E.toFinset.card = E.length := List.toFinset_card_of_nodup hnd
  have hcard_lt : (E.toFinset.filter (fun e => strLt e.1 e.2 = true)).card =
      (E.filter (fun e => strLt e.1 e.2)).length := by
    rw [← List.toFinset_card_of_nodup (hnd.filter _), List.toFinset_filter]
  have hsplit := Finset.filter_card_add_filter_neg_card_eq_card
    (s := E.toFinset) (fun e => strLt e.1 e.2 = true)
  have hcongr : E.toFinset.filter (fun e => ¬ (strLt e.1 e.2 = true)) =
      E.toFinset.filter (fun e => strLt e.2 e.1 = true) := by
    apply Finset.filter_congr
    intro e he
    have hmem : e ∈ E := List.mem_toFinset.mp he
    have hne' : e.1 ≠ e.2 := hne e hmem
    simp only [strLt_iff, eq_iff_iff]
    constructor
    · intro h
      rcases lt_or_gt_of_ne hne' with h' | h'
      · exact absurd h' h
      · exact h'
    · intro h h'
      exact absurd h' (asymm h)
  have hbij : (E.toFinset.filter (fun e => strLt e.2 e.1 = true)).card =
      (E.toFinset.filter (fun e => strLt e.1 e.2 = true)).card := by
    apply Finset.card_nbij' (fun p => (p.2, p.1)) (fun p => (p.2, p.1))
    · intro p hp
      rw [Finset.mem_filter] at hp ⊢
      exact ⟨List.mem_toFinset.mpr (hswap p (List.mem_toFinset.mp hp.1)), hp.2⟩
    · intro p hp
      rw [Finset.mem_filter] at hp ⊢
      exact ⟨List.mem_toFinset.mpr (hswap p (List.mem_toFinset.mp hp.1)), hp.2⟩
    · intro p _
      rfl
    · intro p _
      rfl
  rw [hcongr, hbij, hcard_lt, hcard] at hsplit
  omega

/-- C4: link derivation count.  For a node list satisfying the data model's
invariants (unique ids, set-like adjacency, symmetric with every neighbor id
denoting a node, no self-loops), `getLinksFromNodes` emits exactly
(sum of all degrees)/2 links, no unordered pair appears twice, and each
link is emitted in the direction placing the source strictly before the
target in the total order on ids. -/
theorem getLinksFromNodes_count (nodes : List Node)
    (hids : (nodes.map Node.id).Nodup)
    (hconns : ∀ n ∈ nodes, n.connections.Nodup)
    (hsym : SymmClosed nodes)
    (hself : NoSelfLoops nodes) :
    2 * (getLinksFromNodes nodes).length = totalDegree nodes ∧
    (getLinksFromNodes nodes).Pairwise (fun l l' => ¬ sameUndirected l l') ∧
    ∀ l ∈ getLinksFromNodes nodes, l.source < l.target := by
  have hE : (directedEdges nodes).Nodup := nodup_directedEdges hids hconns
  have hswap : ∀ p ∈ directedEdges nodes, (p.2, p.1) ∈ directedEdges nodes :=
    fun p hp => swap_mem_directedEdges hsym hp
  have hne : ∀ p ∈ directedEdges nodes, p.1 ≠ p.2 :=
    fun p hp => ne_of_mem_directedEdges hself hp
  have hlt : ∀ l ∈ getLinksFromNodes nodes, l.source < l.target ∧ l.value = 1 := by
    intro l hl
    obtain ⟨n, _, t, _, hlt', rfl⟩ := mem_getLinksFromNodes.mp hl
    exact ⟨(strLt_iff _ _).mp hlt', rfl⟩
  refine ⟨?_, ?_, fun l hl => (hlt l hl).1⟩
  · rw [getLinksFromNodes_eq, List.length_map, count_filter_lt hE hswap hne,
      directedEdges_length]
  · have hnodup : (getLinksFromNodes nodes).Nodup := by
      rw [getLinksFromNodes_eq]
      exact (hE.filter _).map (fun e₁ e₂ h => by
        obtain ⟨x1, y1⟩ := e₁
        obtain ⟨x2, y2⟩ := e₂
        simpa [Link.mk.injEq] using h)
    apply List.Pairwise.imp_of_mem ?_ hnodup
    intro l l' hl hl' hll'
    intro hsame
    have h1 := hlt l hl
    have h2 := hlt l' hl'
    rcases hsame with ⟨hs1, hs2⟩ | ⟨hs1, hs2⟩
    · apply hll'
      obtain ⟨s1, t1, v1⟩ := l
      obtain ⟨s2, t2, v2⟩ := l'
      simp only at hs1 hs2
      simp only at h1 h2
      rw [Link.mk.injEq]
      exact ⟨hs1, hs2, h1.2.trans h2.2.symm⟩
    · rw [hs1] at h1
      rw [hs2] at h1
      exact absurd h2.1 (asymm h1.1)

theorem getLinksFromNodes_count_witness :
    (cycleNodes.map Node.id).Nodup ∧ (∀ n ∈ cycleNodes, n.connections.Nodup) ∧
    SymmClosed cycleNodes ∧ NoSelfLoops cycleNodes ∧
    (2 * (getLinksFromNodes cycleNodes).length = totalDegree cycleNodes ∧
      (getLinksFromNodes cycleNodes).Pairwise (fun l l' => ¬ sameUndirected l l') ∧
      ∀ l ∈ getLinksFromNodes cycleNodes, l.source < l.target) :=
  ⟨by decide, by decide, by decide, by decide,
    getLinksFromNodes_count cycleNodes (by decide) (by decide) (by decide) (by decide)⟩

/-- C2 evaluation: `toggleConnection` applied with equal source and target
is not a no-op — on a single node `a` with empty adjacency it appends `"a"`
twice to the node's own adjacency list (the spec requires a no-op; the
`a == b` guard exists only at the UI call site, not in the function). -/
theorem toggleConnection_self_not_noop :
    toggleConnection [nodeA] "a" "a" = [{ nodeA with connections := ["a", "a"] }] ∧
    toggleConnection [nodeA] "a" "a" ≠ [nodeA] := by
  constructor
  · decide
  · decide

end Force
